import Mathlib

/-!
Shallow embedding of a scalar reverse-mode automatic-differentiation engine
(`Value` in `main.py`) and of the neural-network composition built on it
(`Neuron`, `Layer`, `MLP`).

Modelling conventions:

* The mutable object graph is an arena: a `GS α` holds the list of nodes in
  creation order, so a node's identifier is its index.  Every arithmetic
  operation appends one node (`Value.__init__` plus the assignment of the
  `_backward` closure) and never touches existing entries, mirroring the
  Python code where forward evaluation is graph construction.
* Each `_backward` closure bound by the source is one of finitely many
  shapes, fully determined by the operation that created the node and the
  operand references it captured; the inductive tag `Op` records exactly
  that data and `applyRule` replays the closure's sequence of `+=` updates.
* Numeric `data` is a field element (`ℚ` for executable instances, `ℝ` when
  the transcendental `tanh`/`exp` values matter); Python floats are embedded
  as exact field values, the standard idealisation.
* `Value.previous = set(children)` deduplicates the operand tuple, hence
  `prev` is `List.dedup` of the captured operands.
* `Value.backward`'s recursive `build_topo` terminates because each node only
  references earlier-created nodes, so identifiers strictly decrease along
  predecessor edges; the embedding makes the recursion structural with a
  fuel argument, and `root + 1` fuel is enough for any such graph.
* Python exceptions surface as `Except.error`: the `assert` in `__pow__`
  (an `AssertionError` at call time) and the `ZeroDivisionError` that Python
  raises when a zero base is raised to a negative power (`0.0 ** -1` does
  not yield `inf`).
-/

namespace BP

/-- Operation tag of a node: which rule produced it, together with the
operand identifiers (and, for `pow`, the fixed exponent) that the source's
`_backward` closure captured.  `leaf` is a node built by `Value.__init__`
alone, whose `_backward` is the no-op `lambda: None`. -/
inductive Op (α : Type) where
  | leaf : Op α
  | add (l r : ℕ) : Op α
  | mul (l r : ℕ) : Op α
  | pow (b : ℕ) (n : ℤ) : Op α
  | tanh (a : ℕ) : Op α
  | exp (a : ℕ) : Op α
  deriving DecidableEq

/-- The operand identifiers captured by the node's backward rule, in the
order the source lists the children. -/
def Op.operands {α : Type} : Op α → List ℕ
  | .leaf => []
  | .add l r => [l, r]
  | .mul l r => [l, r]
  | .pow b _ => [b]
  | .tanh a => [a]
  | .exp a => [a]

/-- One graph node: `Value.data` (immutable after construction) and the
operation tag.  The mutable `gradient` accumulator lives in `GS.grads`. -/
structure Node (α : Type) where
  data : α
  op : Op α

/-- The whole mutable state of the computation graph: the arena of nodes in
creation order and the gradient accumulator of every node.  A node's
identifier is its index in `nodes`. -/
structure GS (α : Type) where
  nodes : List (Node α)
  grads : ℕ → α

variable {α : Type}

/-- The empty graph: no nodes, all gradient cells zero. -/
def GS.empty [Field α] : GS α := ⟨[], fun _ => 0⟩

/-- Default node used for out-of-range lookups (never reached on the
well-formed graphs the constructors build). -/
def dN [Field α] : Node α := ⟨0, Op.leaf⟩

/-- Forward value of node `i` (`.data`). -/
def dataOf [Field α] (g : GS α) (i : ℕ) : α := (g.nodes.getD i dN).data

/-- Operation tag of node `i`. -/
def opOf [Field α] (g : GS α) (i : ℕ) : Op α := (g.nodes.getD i dN).op

/-- `Value.previous`: the set of children, i.e. the deduplicated operand
list (Python's `set(children)`). -/
def prev [Field α] (g : GS α) (i : ℕ) : List ℕ := (opOf g i).operands.dedup

/-- Pointwise update of a gradient table. -/
def updG (f : ℕ → α) (j : ℕ) (v : α) : ℕ → α := fun k => if k = j then v else f k

/-- `Value.__init__`: append a fresh node with the given data and operation
tag; its gradient cell is initialised to `0.0`.  Returns the new state and
the new node's identifier. -/
def mkValue [Field α] (g : GS α) (d : α) (op : Op α) : GS α × ℕ :=
  (⟨g.nodes ++ [⟨d, op⟩], updG g.grads g.nodes.length 0⟩, g.nodes.length)

/-- A leaf node `Value(d)`: no children, no-op backward rule. -/
def leafV [Field α] (g : GS α) (d : α) : GS α × ℕ := mkValue g d Op.leaf

/-- `Value.__add__`: value `a.data + b.data`, children `(a, b)`, tag `'+'`. -/
def vAdd [Field α] (g : GS α) (a b : ℕ) : GS α × ℕ :=
  mkValue g (dataOf g a + dataOf g b) (Op.add a b)

/-- `Value.__mul__`: value `a.data * b.data`, children `(a, b)`, tag `'*'`. -/
def vMul [Field α] (g : GS α) (a b : ℕ) : GS α × ℕ :=
  mkValue g (dataOf g a * dataOf g b) (Op.mul a b)

/-- The `AssertionError` message of `Value.__pow__`. -/
def powAssertMsg : String := "can only do int or float powers"

/-- The error Python raises for `0.0 ** n` with `n < 0` (and for `1/0`). -/
def zeroDivMsg : String := "ZeroDivisionError: 0.0 cannot be raised to a negative power"

/-- A Python object passed as the exponent of `__pow__`: either a real
(int or float) number — embedded as an exact integer, the only exponents
the program ever uses — or a non-numeric object with a description. -/
inductive PyArg where
  | num (n : ℤ) : PyArg
  | nonNum (descr : String) : PyArg
  deriving DecidableEq

/-- `Value.__pow__`: first the `assert isinstance(other, (int, float))`
(call-time `AssertionError` on a non-real exponent), then the eager
evaluation of `self.data ** other`, which Python aborts with
`ZeroDivisionError` when the base is zero and the exponent negative;
otherwise a node with value `a.data ** n` and tag `pow` is created. -/
def powPy [Field α] [DecidableEq α] (g : GS α) (a : ℕ) (e : PyArg) :
    Except String (GS α × ℕ) :=
  match e with
  | .nonNum _ => .error powAssertMsg
  | .num n =>
      if dataOf g a = 0 ∧ n < 0 then .error zeroDivMsg
      else .ok (mkValue g (dataOf g a ^ n) (Op.pow a n))

/-- `Value.__neg__`: `self * -1`; the raw `-1` is wrapped as a fresh leaf by
`__mul__` before the product node is created. -/
def vNeg [Field α] (g : GS α) (a : ℕ) : GS α × ℕ :=
  let m := leafV g (-1)
  vMul m.1 a m.2

/-- `Value.__sub__`: `self + (-other)`. -/
def vSub [Field α] (g : GS α) (a b : ℕ) : GS α × ℕ :=
  let nb := vNeg g b
  vAdd nb.1 a nb.2

/-- `Value.__truediv__`: `self * other ** -1`; the `ZeroDivisionError` of the
power propagates. -/
def divPy [Field α] [DecidableEq α] (g : GS α) (a b : ℕ) :
    Except String (GS α × ℕ) :=
  match powPy g b (PyArg.num (-1)) with
  | .error e => .error e
  | .ok gp => .ok (vMul gp.1 a gp.2)

/-- `Value.tanh`: value `(e^{2x} - 1) / (e^{2x} + 1)`; the host exponential
is an explicit parameter `E` so the construction stays generic in `α`. -/
def vTanh [Field α] (E : α → α) (g : GS α) (a : ℕ) : GS α × ℕ :=
  mkValue g ((E (2 * dataOf g a) - 1) / (E (2 * dataOf g a) + 1)) (Op.tanh a)

/-- `Value.exp`: value `e^{x}`. -/
def vExp [Field α] (E : α → α) (g : GS α) (a : ℕ) : GS α × ℕ :=
  mkValue g (E (dataOf g a)) (Op.exp a)

/-- Add `v` into the gradient accumulator of node `j` (one `+=` statement). -/
def addGrad [Field α] (g : GS α) (j : ℕ) (v : α) : GS α :=
  { g with grads := updG g.grads j (g.grads j + v) }

/-- Replay of the `_backward` closure attached to node `i`, given its tag:
the exact sequence of `+=` statements of the source, each reading the state
left by the previous one.  The pow rule's `self.data ** (other - 1)` is
rendered as total field zpow; `runNodePy` refines this branch with the
`ZeroDivisionError` Python raises when the base is zero and `other - 1`
negative, and coincides with `runNode` in every non-raising case. -/
def applyRule [Field α] (g : GS α) (i : ℕ) : Op α → GS α
  | Op.leaf => g
  | Op.add l r =>
      let g1 := addGrad g l (1 * g.grads i)
      addGrad g1 r (1 * g1.grads i)
  | Op.mul l r =>
      let g1 := addGrad g l (dataOf g r * g.grads i)
      addGrad g1 r (dataOf g1 l * g1.grads i)
  | Op.pow j n => addGrad g j ((n : α) * dataOf g j ^ (n - 1) * g.grads i)
  | Op.tanh j => addGrad g j ((1 - dataOf g i ^ 2) * g.grads i)
  | Op.exp j => addGrad g j (dataOf g i * g.grads i)

/-- `node._backward()`: run node `i`'s backward rule. -/
def runNode [Field α] (g : GS α) (i : ℕ) : GS α := applyRule g i (opOf g i)

/-- `build_topo` of `Value.backward`: depth-first traversal that marks a node
visited on entry, recurses into its children, and appends the node after
them (post-order).  The recursion is made structural with a fuel argument;
since identifiers strictly decrease along predecessor edges of constructed
graphs, `i + 1` fuel always suffices to explore from node `i`. -/
def buildTopo [Field α] (g : GS α) : ℕ → ℕ → List ℕ × List ℕ → List ℕ × List ℕ
  | 0, _, s => s
  | fuel + 1, i, s =>
      if i ∈ s.1 then s
      else
        let s1 := (prev g i).foldl (fun t c => buildTopo g fuel c t) (i :: s.1, s.2)
        (s1.1, s1.2 ++ [i])

/-- `Value.backward`: build the topological order from `root`, seed
`root.gradient = 1.0`, then invoke each node's backward rule in reverse
topological order. -/
def backward [Field α] (g : GS α) (root : ℕ) : GS α :=
  ((buildTopo g (root + 1) root ([], [])).2.reverse).foldl runNode
    ⟨g.nodes, updG g.grads root 1⟩

/-- Well-formedness produced by graph construction: every predecessor was
created earlier, i.e. identifiers strictly decrease along edges. -/
def Wf [Field α] (g : GS α) : Prop := ∀ i j, j ∈ prev g i → j < i

/-- `i` lies in the upstream subgraph of `root` (reachability along
predecessor edges). -/
inductive Reaches [Field α] (g : GS α) (root : ℕ) : ℕ → Prop where
  | refl : Reaches g root root
  | tail {i j : ℕ} : Reaches g root i → j ∈ prev g i → Reaches g root j

end BP

namespace BP

variable {α : Type}

/-! Basic lemmas about the gradient table and the arena. -/

theorem updG_same (f : ℕ → α) (j : ℕ) (v : α) : updG f j v j = v := by
  simp [updG]

theorem updG_ne (f : ℕ → α) {j k : ℕ} (v : α) (h : k ≠ j) : updG f j v k = f k := by
  simp [updG, h]

theorem getD_append_lt {β : Type} (l l' : List β) (d : β) :
    ∀ j, j < l.length → (l ++ l').getD j d = l.getD j d := by
  induction l with
  | nil => intro j hj; simp at hj
  | cons x xs ih =>
      intro j hj
      cases j with
      | zero => simp [List.getD]
      | succ j =>
          simp only [List.cons_append, List.getD_cons_succ]
          exact ih j (by simp at hj; omega)

theorem getD_append_len {β : Type} (l : List β) (x : β) (d : β) :
    (l ++ [x]).getD l.length d = x := by
  induction l with
  | nil => simp [List.getD]
  | cons y ys ih => simp only [List.cons_append, List.length_cons, List.getD_cons_succ]; exact ih

theorem prev_out_of_range [Field α] (g : GS α) (i : ℕ) (h : g.nodes.length ≤ i) :
    prev g i = [] := by
  simp only [prev, opOf]
  rw [List.getD_eq_default _ _ h]
  rfl

theorem wf_of_bounded [Field α] (g : GS α)
    (h : ∀ i ∈ List.range g.nodes.length, ∀ j ∈ prev g i, j < i) : Wf g := by
  intro i j hj
  by_cases hi : i < g.nodes.length
  · exact h i (List.mem_range.mpr hi) j hj
  · rw [prev_out_of_range g i (le_of_not_lt hi)] at hj
    simp at hj

theorem reaches_trans [Field α] {g : GS α} {a b c : ℕ}
    (h1 : Reaches g a b) (h2 : Reaches g b c) : Reaches g a c := by
  induction h2 with
  | refl => exact h1
  | tail _ hj ih => exact Reaches.tail ih hj

theorem reaches_le [Field α] {g : GS α} (hwf : Wf g) {r x : ℕ}
    (h : Reaches g r x) : x ≤ r := by
  induction h with
  | refl => exact le_refl _
  | tail _ hj ih => exact le_of_lt (lt_of_lt_of_le (hwf _ _ hj) ih)

end BP

namespace BP

variable {α : Type}

/-! Frame lemmas: a backward rule never touches the node list, and a freshly
appended node is found at index `length`. -/

theorem addGrad_nodes [Field α] (g : GS α) (j : ℕ) (v : α) :
    (addGrad g j v).nodes = g.nodes := rfl

theorem applyRule_nodes [Field α] (g : GS α) (i : ℕ) (o : Op α) :
    (applyRule g i o).nodes = g.nodes := by
  cases o <;> rfl

theorem runNode_nodes [Field α] (g : GS α) (i : ℕ) :
    (runNode g i).nodes = g.nodes := applyRule_nodes g i _

theorem opOf_eq_of_nodes [Field α] {s : GS α} {l : List (Node α)} {nd : Node α}
    (h : s.nodes = l ++ [nd]) : opOf s l.length = nd.op := by
  simp [opOf, h, getD_append_len]

theorem dataOf_eq_of_nodes [Field α] {s : GS α} {g : GS α} {nd : Node α}
    (h : s.nodes = g.nodes ++ [nd]) {j : ℕ} (hj : j < g.nodes.length) :
    dataOf s j = dataOf g j := by
  simp only [dataOf, h]
  rw [getD_append_lt _ _ _ j hj]

theorem dataOf_addGrad [Field α] (g : GS α) (j i : ℕ) (v : α) :
    dataOf (addGrad g j v) i = dataOf g i := rfl

/-- The graph on which claim C3 evaluates the engine: `a = Value(v)`,
`b = a * a + a` (ids: `a = 0`, `a*a = 1`, `b = 2`). -/
def c3graph [Field α] (v : α) : GS α × ℕ :=
  let a := leafV GS.empty v
  let m := vMul a.1 a.2 a.2
  vAdd m.1 m.2 a.2

/-- C2: `add(a, b)` produces a new node (id `g.nodes.length`) with value
`a.data + b.data` whose backward rule adds the output's gradient to both
`a.gradient` and `b.gradient`; `multiply(a, b)` produces a new node with
value `a.data * b.data` whose backward rule adds `b.data * g` to
`a.gradient` and `a.data * g` to `b.gradient`.  The rule's action is stated
for any gradient state `s` over the extended node list, as `backward`
invokes it. -/
theorem add_mul_local_rules [Field α] (g : GS α) (a b : ℕ)
    (ha : a < g.nodes.length) (hb : b < g.nodes.length) (hab : a ≠ b) :
    (vAdd g a b).2 = g.nodes.length ∧
    (vMul g a b).2 = g.nodes.length ∧
    dataOf (vAdd g a b).1 (vAdd g a b).2 = dataOf g a + dataOf g b ∧
    dataOf (vMul g a b).1 (vMul g a b).2 = dataOf g a * dataOf g b ∧
    (∀ s : GS α, s.nodes = (vAdd g a b).1.nodes →
      (runNode s (vAdd g a b).2).grads a = s.grads a + s.grads (vAdd g a b).2 ∧
      (runNode s (vAdd g a b).2).grads b = s.grads b + s.grads (vAdd g a b).2) ∧
    (∀ s : GS α, s.nodes = (vMul g a b).1.nodes →
      (runNode s (vMul g a b).2).grads a
        = s.grads a + dataOf g b * s.grads (vMul g a b).2 ∧
      (runNode s (vMul g a b).2).grads b
        = s.grads b + dataOf g a * s.grads (vMul g a b).2) := by
  have hoa : a ≠ g.nodes.length := Nat.ne_of_lt ha
  have hob : b ≠ g.nodes.length := Nat.ne_of_lt hb
  refine ⟨rfl, rfl, ?_, ?_, ?_, ?_⟩
  · simp [vAdd, mkValue, dataOf, getD_append_len]
  · simp [vMul, mkValue, dataOf, getD_append_len]
  · intro s hs
    have ho2 : (vAdd g a b).2 = g.nodes.length := rfl
    have hop : opOf s g.nodes.length = Op.add a b := opOf_eq_of_nodes hs
    rw [ho2, runNode, hop]
    constructor
    · simp [applyRule, addGrad, updG, hab, hoa, hob, Ne.symm hoa, Ne.symm hob,
        Ne.symm hab]
    · simp [applyRule, addGrad, updG, hab, hoa, hob, Ne.symm hoa, Ne.symm hob,
        Ne.symm hab]
  · intro s hs
    have ho2 : (vMul g a b).2 = g.nodes.length := rfl
    have hop : opOf s g.nodes.length = Op.mul a b := opOf_eq_of_nodes hs
    have hdb : dataOf s b = dataOf g b := dataOf_eq_of_nodes hs hb
    have hda : dataOf s a = dataOf g a := dataOf_eq_of_nodes hs ha
    rw [ho2, runNode, hop]
    simp [dataOf] at hda hdb
    constructor
    · simp [applyRule, addGrad, dataOf, hda, hdb, updG, hab, hoa, hob,
        Ne.symm hoa, Ne.symm hob, Ne.symm hab]
    · simp [applyRule, addGrad, dataOf, hda, hdb, updG, hab, hoa, hob,
        Ne.symm hoa, Ne.symm hob, Ne.symm hab]

/-- Two-leaf graph used to witness the binary-operation rules. -/
def gPair : GS ℚ := (leafV (leafV GS.empty 2).1 3).1

/-- C2 witness: the theorem instantiated on a concrete two-leaf graph. -/
theorem add_mul_local_rules_witness :
    (0 < gPair.nodes.length ∧ 1 < gPair.nodes.length ∧ (0 : ℕ) ≠ 1) ∧
    dataOf (vAdd gPair 0 1).1 (vAdd gPair 0 1).2 = dataOf gPair 0 + dataOf gPair 1 :=
  ⟨⟨by decide, by decide, by decide⟩,
    (add_mul_local_rules gPair 0 1 (by decide) (by decide) (by decide)).2.2.1⟩

/-- C3: additivity of gradient accumulation under reuse.  For a leaf `a`
with `a.data = v` and `b = a * a + a`, after `backward(b)` the gradient of
`a` is `2 * v + 1`: each of the two uses of `a` inside `a * a` deposits
`v * g`, and the second branch deposits `g`, with `g = 1`. -/
theorem reuse_additivity (v : ℚ) :
    (backward (c3graph v).1 (c3graph v).2).grads 0 = 2 * v + 1 := by
  have h : (backward (c3graph v).1 (c3graph v).2).grads 0
      = ((0 : ℚ) + 1 * 1) + v * (0 + 1 * 1) + v * (0 + 1 * 1) := rfl
  rw [h]; ring

/-- C3 witness: at `a.data = 3.0` the gradient after `backward` is
`2 * 3 + 1 = 7`. -/
theorem reuse_additivity_witness :
    (backward (c3graph (3 : ℚ)).1 (c3graph (3 : ℚ)).2).grads 0 = 2 * 3 + 1 ∧
    (2 * (3 : ℚ) + 1 = 7) :=
  ⟨reuse_additivity 3, by norm_num⟩

end BP

namespace BP

variable {α : Type}

/-! Division by a zero-valued node and the `__pow__` error semantics
(claims C6 and C7). -/

/-- C6 amended: for every pair of nodes with `b.data == 0`, `divide(a, b)`
raises at call time — Python evaluates `other.data ** -1` eagerly and
`0.0 ** -1` raises `ZeroDivisionError` instead of yielding an infinite or
not-a-number float — so no node is returned. -/
theorem div_by_zero_raises [Field α] [DecidableEq α] (g : GS α) (a b : ℕ)
    (hb : dataOf g b = 0) : divPy g a b = Except.error zeroDivMsg := by
  have hp : powPy g b (PyArg.num (-1)) = Except.error zeroDivMsg := by
    simp [powPy, hb]
  simp [divPy, hp]

/-- Graph with two leaves `1` and `0` (`a = Value(1.0)`, `b = Value(0.0)`). -/
def gDivZero : GS ℚ := (leafV (leafV GS.empty 1).1 0).1

/-- C6 counterexample: at `a = Value(1.0)`, `b = Value(0.0)`, the call
`a / b` errors out (Python's `ZeroDivisionError`), refuting the claim that
division by a zero-valued node does not raise and produces a non-finite
value. -/
theorem div_by_zero_raises_counterexample :
    divPy gDivZero 0 1 = Except.error zeroDivMsg ∧
    ∀ r : GS ℚ × ℕ, divPy gDivZero 0 1 ≠ Except.ok r := by
  refine ⟨rfl, ?_⟩
  intro r h
  rw [show divPy gDivZero 0 1 = Except.error zeroDivMsg from rfl] at h
  exact Except.noConfusion h

/-- C6 witness: the amended theorem applied to the concrete graph. -/
theorem div_by_zero_raises_witness :
    dataOf gDivZero 1 = 0 ∧ divPy gDivZero 0 1 = Except.error zeroDivMsg :=
  ⟨rfl, div_by_zero_raises gDivZero 0 1 rfl⟩

/-- Execution of node `i`'s backward rule with Python's error semantics:
a pow rule evaluates `self.data ** (other - 1)` eagerly, and Python raises
`ZeroDivisionError` when the base is zero and the shifted exponent
negative; every other rule never raises.  In the non-raising cases this is
exactly `runNode`. -/
def ruleExec [Field α] [DecidableEq α] (g : GS α) (i : ℕ) :
    Op α → Except String (GS α)
  | Op.pow j n =>
      if dataOf g j = 0 ∧ n - 1 < 0 then Except.error zeroDivMsg
      else Except.ok (applyRule g i (Op.pow j n))
  | op => Except.ok (applyRule g i op)

/-- `node._backward()` with Python's error semantics: execute the rule of
node `i`'s tag fallibly. -/
def runNodePy [Field α] [DecidableEq α] (g : GS α) (i : ℕ) :
    Except String (GS α) :=
  ruleExec g i (opOf g i)

/-- Whenever the rule does not raise, the fallible execution agrees with
the total replay used by `backward`. -/
theorem runNodePy_agrees [Field α] [DecidableEq α] (g : GS α) (i : ℕ)
    (s' : GS α) (h : runNodePy g i = Except.ok s') : s' = runNode g i := by
  rw [runNode]
  rw [runNodePy] at h
  cases hop : opOf g i with
  | pow j n =>
      rw [hop] at h
      simp only [ruleExec] at h
      by_cases hc : dataOf g j = 0 ∧ n - 1 < 0
      · rw [if_pos hc] at h
        exact Except.noConfusion h
      · rw [if_neg hc, Except.ok.injEq] at h
        exact h.symm
  | leaf =>
      rw [hop] at h
      simp only [ruleExec, Except.ok.injEq] at h
      exact h.symm
  | add l r =>
      rw [hop] at h
      simp only [ruleExec, Except.ok.injEq] at h
      exact h.symm
  | mul l r =>
      rw [hop] at h
      simp only [ruleExec, Except.ok.injEq] at h
      exact h.symm
  | tanh j =>
      rw [hop] at h
      simp only [ruleExec, Except.ok.injEq] at h
      exact h.symm
  | exp j =>
      rw [hop] at h
      simp only [ruleExec, Except.ok.injEq] at h
      exact h.symm

/-- C7 amended: `power(a, n)` fails immediately at call time with the
invalid-argument `AssertionError` when the exponent is not a real number;
when `n` is real it returns a node with value `a.data ** n` whose backward
rule adds `n * a.data**(n-1) * g` to `a.gradient` — except that when
`a.data == 0` Python raises `ZeroDivisionError` instead: at call time when
`n < 0` (the eager `self.data ** other`), and at backward time when
`n == 0` (the rule evaluates `self.data ** (other - 1) = 0 ** -1`). -/
theorem pow_call_semantics [Field α] [DecidableEq α] (g : GS α) (a : ℕ)
    (ha : a < g.nodes.length) :
    (∀ d : String, powPy g a (PyArg.nonNum d) = Except.error powAssertMsg) ∧
    (∀ n : ℤ,
      (dataOf g a = 0 ∧ n < 0 → powPy g a (PyArg.num n) = Except.error zeroDivMsg) ∧
      (¬(dataOf g a = 0 ∧ n < 0) →
        powPy g a (PyArg.num n)
          = Except.ok (mkValue g (dataOf g a ^ n) (Op.pow a n)) ∧
        dataOf (mkValue g (dataOf g a ^ n) (Op.pow a n)).1 g.nodes.length
          = dataOf g a ^ n ∧
        (∀ s : GS α, s.nodes = (mkValue g (dataOf g a ^ n) (Op.pow a n)).1.nodes →
          (dataOf g a = 0 ∧ n = 0 →
            runNodePy s g.nodes.length = Except.error zeroDivMsg) ∧
          (¬(dataOf g a = 0 ∧ n = 0) →
            runNodePy s g.nodes.length = Except.ok (runNode s g.nodes.length) ∧
            (runNode s g.nodes.length).grads a
              = s.grads a + (n : α) * dataOf g a ^ (n - 1)
                  * s.grads g.nodes.length)))) := by
  have hoa : a ≠ g.nodes.length := Nat.ne_of_lt ha
  refine ⟨fun d => rfl, fun n => ⟨?_, ?_⟩⟩
  · intro hzn
    simp [powPy, hzn.1, hzn.2]
  · intro hzn
    refine ⟨by simp [powPy, hzn], ?_, ?_⟩
    · simp [mkValue, dataOf, getD_append_len]
    · intro s hs
      have hop : opOf s g.nodes.length = Op.pow a n := opOf_eq_of_nodes hs
      have hda : dataOf s a = dataOf g a := dataOf_eq_of_nodes hs ha
      constructor
      · intro hz0
        rw [runNodePy, hop]
        simp only [ruleExec]
        rw [if_pos (show dataOf s a = 0 ∧ n - 1 < 0 from
          ⟨hda.trans hz0.1, by omega⟩)]
      · intro hne
        have hcond : ¬(dataOf s a = 0 ∧ n - 1 < 0) := by
          intro hc
          have hz : dataOf g a = 0 := hda.symm.trans hc.1
          have hn0 : n = 0 := by
            rcases lt_trichotomy n 0 with hlt | he | hgt
            · exact absurd ⟨hz, hlt⟩ hzn
            · exact he
            · omega
          exact hne ⟨hz, hn0⟩
        have hrnp : runNodePy s g.nodes.length
            = Except.ok (runNode s g.nodes.length) := by
          rw [runNodePy, runNode, hop]
          simp only [ruleExec]
          rw [if_neg hcond]
        refine ⟨hrnp, ?_⟩
        rw [runNode, hop]
        simp [applyRule, addGrad, hda, updG, Ne.symm hoa]

/-- Single-leaf graph `Value(0.0)` for the `__pow__` counterexample. -/
def gZeroLeaf : GS ℚ := (leafV GS.empty 0).1

/-- C7 counterexample: `power(Value(0.0), -1)` has a real exponent yet does
not return a node — Python raises `ZeroDivisionError` while evaluating
`self.data ** other` — refuting the claim that a real exponent always
yields a node with value `a.data ** n`. -/
theorem pow_call_semantics_counterexample :
    powPy gZeroLeaf 0 (PyArg.num (-1)) = Except.error zeroDivMsg ∧
    ∀ r : GS ℚ × ℕ, powPy gZeroLeaf 0 (PyArg.num (-1)) ≠ Except.ok r := by
  refine ⟨rfl, ?_⟩
  intro r h
  rw [show powPy gZeroLeaf 0 (PyArg.num (-1)) = Except.error zeroDivMsg from rfl] at h
  exact Except.noConfusion h

/-- C7 witness: on a nonzero leaf a real exponent builds the power node,
and on the node built by `Value(0.0) ** 0` the backward rule raises. -/
theorem pow_call_semantics_witness :
    (0 < gPair.nodes.length ∧ ¬(dataOf gPair 0 = 0 ∧ (2 : ℤ) < 0)) ∧
    powPy gPair 0 (PyArg.num 2)
      = Except.ok (mkValue gPair (dataOf gPair 0 ^ (2 : ℤ)) (Op.pow 0 2)) ∧
    runNodePy (mkValue gZeroLeaf (dataOf gZeroLeaf 0 ^ (0 : ℤ)) (Op.pow 0 0)).1
        gZeroLeaf.nodes.length
      = Except.error zeroDivMsg :=
  ⟨⟨by decide, by intro h; exact absurd h.2 (by decide)⟩,
    (((pow_call_semantics gPair 0 (by decide)).2 2).2
      (by intro h; exact absurd h.2 (by decide))).1,
    (((((pow_call_semantics gZeroLeaf 0 (by decide)).2 0).2
        (by intro h; exact absurd h.2 (by decide))).2.2
      (mkValue gZeroLeaf (dataOf gZeroLeaf 0 ^ (0 : ℤ)) (Op.pow 0 0)).1 rfl).1
      ⟨rfl, rfl⟩)⟩

end BP

namespace BP

variable {α : Type}

/-! Neuron, Layer and MLP (`main.py` classes).  Weights and biases are
identifiers of already-created leaf nodes (their random initial values are
injected by whoever built those leaves). -/

/-- A `Neuron`: identifiers of its `nin` weight nodes and of its bias node. -/
structure NeuronM where
  w : List ℕ
  b : ℕ

/-- `Neuron.__call__`: `act = sum((wi * xi for wi, xi in zip(self.w, x)), self.b)`
followed by `act.tanh()`.  Python's `zip` silently truncates to the shorter
list, and `sum` folds `total = total + item` from the start value `self.b`,
creating one product node and one sum node per pair, in generation order. -/
def neuronCall [Field α] (E : α → α) (g : GS α) (nr : NeuronM) (x : List ℕ) :
    GS α × ℕ :=
  let act := (nr.w.zip x).foldl
    (fun (s : GS α × ℕ) (p : ℕ × ℕ) =>
      let m := vMul s.1 p.1 p.2
      vAdd m.1 s.2 m.2)
    (g, nr.b)
  vTanh E act.1 act.2

/-- `Neuron.parameters`: `self.w + [self.b]`. -/
def NeuronM.parameters (nr : NeuronM) : List ℕ := nr.w ++ [nr.b]

/-- A `Layer`: its list of neurons. -/
structure LayerM where
  neurons : List NeuronM

/-- Return shape of `Layer.__call__`: either a bare scalar node (the
`outs[0]` special case) or the list of output nodes. -/
inductive LayerOut where
  | scalar (o : ℕ) : LayerOut
  | seq (outs : List ℕ) : LayerOut
  deriving DecidableEq

/-- `Layer.__call__`: `outs = [n(x) for n in self.neurons]`, then
`outs[0] if len(outs) == 1 else outs`. -/
def layerCall [Field α] (E : α → α) (g : GS α) (l : LayerM) (x : List ℕ) :
    GS α × LayerOut :=
  let r := l.neurons.foldl
    (fun (s : GS α × List ℕ) nr =>
      let o := neuronCall E s.1 nr x
      (o.1, s.2 ++ [o.2]))
    (g, [])
  match r.2 with
  | [o] => (r.1, LayerOut.scalar o)
  | outs => (r.1, LayerOut.seq outs)

/-- `Layer.parameters`: `[p for neuron in self.neurons for p in neuron.parameters()]`. -/
def LayerM.parameters (l : LayerM) : List ℕ :=
  (l.neurons.map NeuronM.parameters).flatten

/-- An `MLP`: its list of layers. -/
structure MLPM where
  layers : List LayerM

/-- `MLP.parameters`: `[p for layer in self.layers for p in layer.parameters()]`. -/
def MLPM.parameters (m : MLPM) : List ℕ :=
  (m.layers.map LayerM.parameters).flatten

/-- Six leaves: weights `w0 = 1, w1 = 2, w2 = 3` (ids 0–2), bias `4` (id 3),
inputs `x0 = 5, x1 = 6` (ids 4–5): a neuron of arity 3 and a 2-element
input vector. -/
def gShape : GS ℚ :=
  (leafV (leafV (leafV (leafV (leafV (leafV GS.empty 1).1 2).1 3).1 4).1 5).1 6).1

/-- C5: evaluating a neuron configured for 3 inputs on a 2-element input
vector does not fail; `zip` silently pairs `(w0, x0), (w1, x1)` and drops
`w2` entirely: the output node is produced normally (id 10 after the four
intermediate nodes), its activation value is `b + w0*x0 + w1*x1 = 21`
(weight `w2` contributes nothing), and the backward traversal from the
output reaches `w0`, `w1`, the bias and both inputs but never `w2`
(id 2). -/
theorem shape_mismatch_silently_truncates :
    (neuronCall id gShape ⟨[0, 1, 2], 3⟩ [4, 5]).2 = 10 ∧
    dataOf (neuronCall id gShape ⟨[0, 1, 2], 3⟩ [4, 5]).1 9 = 4 + 1 * 5 + 2 * 6 ∧
    ((2 : ℕ) ∉ (buildTopo (neuronCall id gShape ⟨[0, 1, 2], 3⟩ [4, 5]).1 11 10 ([], [])).2 ∧
      (0 : ℕ) ∈ (buildTopo (neuronCall id gShape ⟨[0, 1, 2], 3⟩ [4, 5]).1 11 10 ([], [])).2 ∧
      (1 : ℕ) ∈ (buildTopo (neuronCall id gShape ⟨[0, 1, 2], 3⟩ [4, 5]).1 11 10 ([], [])).2 ∧
      (3 : ℕ) ∈ (buildTopo (neuronCall id gShape ⟨[0, 1, 2], 3⟩ [4, 5]).1 11 10 ([], [])).2 ∧
      (4 : ℕ) ∈ (buildTopo (neuronCall id gShape ⟨[0, 1, 2], 3⟩ [4, 5]).1 11 10 ([], [])).2 ∧
      (5 : ℕ) ∈ (buildTopo (neuronCall id gShape ⟨[0, 1, 2], 3⟩ [4, 5]).1 11 10 ([], [])).2) := by
  refine ⟨rfl, ?_, by decide⟩
  have h : dataOf (neuronCall id gShape ⟨[0, 1, 2], 3⟩ [4, 5]).1 9
      = (4 : ℚ) + 1 * 5 + 2 * 6 := rfl
  exact h

/-- C8: a `Layer` configured with a single neuron (`nout == 1`) unwraps its
output list to a bare scalar node (`outs[0]`) instead of returning a
one-element sequence: `layerCall` on any one-neuron layer yields
`LayerOut.scalar`, not `LayerOut.seq`. -/
theorem layer_single_output_unwraps [Field α] (E : α → α) (g : GS α)
    (nr : NeuronM) (x : List ℕ) (l : LayerM) (hl : l.neurons = [nr]) :
    (layerCall E g l x).2
      = LayerOut.scalar (neuronCall E g nr x).2 ∧
    ∀ outs, (layerCall E g l x).2 ≠ LayerOut.seq outs := by
  have h : (layerCall E g l x).2 = LayerOut.scalar (neuronCall E g nr x).2 := by
    rw [layerCall, hl]
    rfl
  exact ⟨h, fun outs hc => by rw [h] at hc; exact LayerOut.noConfusion hc⟩

/-- C8 witness: concrete single-neuron layer produces a bare scalar. -/
theorem layer_single_output_unwraps_witness :
    (⟨[⟨[0], 1⟩]⟩ : LayerM).neurons = [⟨[0], 1⟩] ∧
    (layerCall id gPair ⟨[⟨[0], 1⟩]⟩ [0]).2
      = LayerOut.scalar (neuronCall id gPair ⟨[0], 1⟩ [0]).2 :=
  ⟨rfl, (layer_single_output_unwraps id gPair ⟨[0], 1⟩ [0] ⟨[⟨[0], 1⟩]⟩ rfl).1⟩

/-- C9: `parameters()` ordering.  A neuron's parameter list has its `nin`
weights first (it extends `w`) and the bias last, with length `nin + 1`;
a layer's parameter list is the concatenation of its neurons' lists in
neuron order; a network's is the concatenation of its layers' lists in
layer order.  (Stability across repeated calls is immediate: the functions
are pure.) -/
theorem parameters_ordering (nr : NeuronM) (l : LayerM) (m : MLPM)
    (pre : List NeuronM) (nr2 : NeuronM) (post : List NeuronM)
    (hl : l.neurons = pre ++ nr2 :: post)
    (lpre : List LayerM) (ly : LayerM) (lpost : List LayerM)
    (hm : m.layers = lpre ++ ly :: lpost) :
    nr.parameters.length = nr.w.length + 1 ∧
    nr.parameters.take nr.w.length = nr.w ∧
    nr.parameters.getLast? = some nr.b ∧
    l.parameters
      = (pre.map NeuronM.parameters).flatten ++ nr2.parameters
          ++ (post.map NeuronM.parameters).flatten ∧
    m.parameters
      = (lpre.map LayerM.parameters).flatten ++ ly.parameters
          ++ (lpost.map LayerM.parameters).flatten := by
  refine ⟨by simp [NeuronM.parameters], ?_, ?_, ?_, ?_⟩
  · simp [NeuronM.parameters, List.take_left]
  · simp [NeuronM.parameters]
  · rw [LayerM.parameters, hl]
    simp [List.flatten_append]
  · rw [MLPM.parameters, hm]
    simp [List.flatten_append]

/-- C9 witness: concrete one-layer, two-neuron network. -/
theorem parameters_ordering_witness :
    (⟨[⟨[0, 1], 2⟩, ⟨[3, 4], 5⟩]⟩ : LayerM).neurons
        = [] ++ (⟨[0, 1], 2⟩ : NeuronM) :: [⟨[3, 4], 5⟩] ∧
    (⟨[⟨[⟨[0, 1], 2⟩]⟩]⟩ : MLPM).layers
        = [] ++ (⟨[⟨[0, 1], 2⟩]⟩ : LayerM) :: [] ∧
    (⟨[0, 1], 2⟩ : NeuronM).parameters.take 2 = [0, 1] :=
  ⟨rfl, rfl,
    (parameters_ordering ⟨[0, 1], 2⟩ ⟨[⟨[0, 1], 2⟩, ⟨[3, 4], 5⟩]⟩
      ⟨[⟨[⟨[0, 1], 2⟩]⟩]⟩ [] ⟨[0, 1], 2⟩ [⟨[3, 4], 5⟩] rfl
      [] ⟨[⟨[0, 1], 2⟩]⟩ [] rfl).2.1⟩

end BP

namespace BP

variable {α : Type}

/-! Frame properties of the forward-pass constructors (claim C10). -/

/-- `g'` extends `g` by freshly allocated node(s) with returned id `o`:
every existing node's stored record (data, operation tag — hence its
predecessor set) and gradient cell are untouched, the arena strictly grew,
and the returned node's gradient starts at `0.0`. -/
def FramePres [Field α] (g g' : GS α) (o : ℕ) : Prop :=
  (∀ j, j < g.nodes.length →
    g'.nodes.getD j dN = g.nodes.getD j dN ∧ g'.grads j = g.grads j) ∧
  g.nodes.length < g'.nodes.length ∧
  g'.grads o = 0

theorem mkValue_frame [Field α] (g : GS α) (d : α) (op : Op α) :
    FramePres g (mkValue g d op).1 (mkValue g d op).2 := by
  refine ⟨fun j hj => ⟨?_, ?_⟩, ?_, ?_⟩
  · exact getD_append_lt _ _ _ j hj
  · exact updG_ne _ _ (Nat.ne_of_lt hj)
  · simp [mkValue]
  · exact updG_same _ _ _

theorem frame_trans [Field α] {g g1 g2 : GS α} {o1 o2 : ℕ}
    (h1 : FramePres g g1 o1) (h2 : FramePres g1 g2 o2) : FramePres g g2 o2 := by
  obtain ⟨f1, len1, -⟩ := h1
  obtain ⟨f2, len2, z2⟩ := h2
  refine ⟨fun j hj => ?_, lt_trans len1 len2, z2⟩
  obtain ⟨n1, g1j⟩ := f1 j hj
  obtain ⟨n2, g2j⟩ := f2 j (lt_trans hj len1)
  exact ⟨n2.trans n1, g2j.trans g1j⟩

theorem buildTopo_leaf [Field α] {g : GS α} {root : ℕ}
    (hroot : opOf g root = Op.leaf) :
    buildTopo g (root + 1) root ([], []) = ([root], [root]) := by
  have hprev : prev g root = [] := by simp [prev, hroot, Op.operands]
  simp [buildTopo, hprev]

theorem backward_leaf [Field α] {g : GS α} {root : ℕ}
    (hroot : opOf g root = Op.leaf) :
    backward g root = ⟨g.nodes, updG g.grads root 1⟩ := by
  rw [backward, buildTopo_leaf hroot]
  have hop : opOf (⟨g.nodes, updG g.grads root 1⟩ : GS α) root = Op.leaf := hroot
  simp [runNode, hop, applyRule]

/-- C10: every forward-pass constructor (leaf wrap, add, multiply, negate,
subtract, divide, power, tanh, exp) only allocates fresh node(s), leaving
every existing node's data, predecessors and gradient unchanged, and the
node it returns starts with gradient `0.0`; a leaf's backward rule is a
no-op, so `backward` on a leaf node sets exactly that node's gradient to
`1.0` and modifies nothing else. -/
theorem forward_ops_frame [Field α] [DecidableEq α] (g : GS α)
    (a b root : ℕ) (n : ℤ) (d : α) (E : α → α)
    (hroot : opOf g root = Op.leaf) :
    FramePres g (leafV g d).1 (leafV g d).2 ∧
    FramePres g (vAdd g a b).1 (vAdd g a b).2 ∧
    FramePres g (vMul g a b).1 (vMul g a b).2 ∧
    FramePres g (vNeg g a).1 (vNeg g a).2 ∧
    FramePres g (vSub g a b).1 (vSub g a b).2 ∧
    FramePres g (vTanh E g a).1 (vTanh E g a).2 ∧
    FramePres g (vExp E g a).1 (vExp E g a).2 ∧
    (∀ g' o, powPy g a (PyArg.num n) = Except.ok (g', o) → FramePres g g' o) ∧
    (∀ g' o, divPy g a b = Except.ok (g', o) → FramePres g g' o) ∧
    (∀ (s : GS α) (i : ℕ), opOf s i = Op.leaf → runNode s i = s) ∧
    ((backward g root).nodes = g.nodes ∧
      (backward g root).grads root = 1 ∧
      ∀ j, j ≠ root → (backward g root).grads j = g.grads j) := by
  have hpow : ∀ g' o, powPy g a (PyArg.num n) = Except.ok (g', o) → FramePres g g' o := by
    intro g' o h
    by_cases hc : dataOf g a = 0 ∧ n < 0
    · rw [powPy] at h
      simp only [if_pos hc] at h
      exact Except.noConfusion h
    · rw [powPy] at h
      simp only [if_neg hc, Except.ok.injEq] at h
      rw [Prod.ext_iff] at h
      obtain ⟨h1, h2⟩ := h
      dsimp only at h1 h2
      rw [← h1, ← h2]
      exact mkValue_frame g _ _
  refine ⟨mkValue_frame g d Op.leaf, mkValue_frame g _ _, mkValue_frame g _ _,
    frame_trans (mkValue_frame g (-1) Op.leaf) (mkValue_frame _ _ _),
    frame_trans (frame_trans (mkValue_frame g (-1) Op.leaf) (mkValue_frame _ _ _))
      (mkValue_frame _ _ _),
    mkValue_frame g _ _, mkValue_frame g _ _, hpow, ?_, ?_, ?_, ?_, ?_⟩
  · intro g' o h
    by_cases hc : dataOf g b = 0 ∧ (-1 : ℤ) < 0
    · rw [divPy, powPy] at h
      simp only [if_pos hc] at h
      exact Except.noConfusion h
    · rw [divPy, powPy] at h
      simp only [if_neg hc, Except.ok.injEq] at h
      rw [Prod.ext_iff] at h
      obtain ⟨h1, h2⟩ := h
      dsimp only at h1 h2
      rw [← h1, ← h2]
      exact frame_trans (mkValue_frame g _ _) (mkValue_frame _ _ _)
  · intro s i hop
    simp [runNode, hop, applyRule]
  · rw [backward_leaf hroot]
  · rw [backward_leaf hroot]
    exact updG_same _ _ _
  · intro j hj
    rw [backward_leaf hroot]
    exact updG_ne _ _ hj

/-- C10 witness: on the single-leaf graph `Value(0.0)`. -/
theorem forward_ops_frame_witness :
    opOf gZeroLeaf 0 = Op.leaf ∧
    FramePres gZeroLeaf (vAdd gZeroLeaf 0 0).1 (vAdd gZeroLeaf 0 0).2 :=
  ⟨rfl, (forward_ops_frame gZeroLeaf 0 0 0 2 1 id rfl).2.1⟩

end BP

namespace BP

variable {α : Type}

/-! Correctness of the depth-first post-order traversal of
`Value.backward` (claim C1). -/

/-- Invariant of the traversal state `(visited, topo)` restricted to the
finished (`topo`) part: no duplicates, finished nodes are visited, the
finished list is closed under predecessors, and no finished node has a
predecessor finished later than itself. -/
def GoodState [Field α] (g : GS α) (s : List ℕ × List ℕ) : Prop :=
  s.2.Nodup ∧ (∀ x ∈ s.2, x ∈ s.1) ∧
  (∀ x ∈ s.2, ∀ j ∈ prev g x, j ∈ s.2) ∧
  s.2.Pairwise (fun x y => y ∉ prev g x)

/-- Master specification of the depth-first traversal: started on node `i`
with more fuel than `i`, in a state satisfying the invariant whose pending
(visited-but-unfinished) nodes all lie strictly above `i`, it preserves the
invariant, finishes `i`, only appends to the finished list, grows the
visited set, creates no new pending nodes, and every newly finished node is
reachable from `i` along predecessor edges. -/
theorem buildTopo_master [Field α] (g : GS α) (hwf : Wf g) :
    ∀ fuel i s, i < fuel → GoodState g s → (∀ x ∈ s.1, x ∉ s.2 → i < x) →
      GoodState g (buildTopo g fuel i s) ∧
      i ∈ (buildTopo g fuel i s).2 ∧
      (∃ t, (buildTopo g fuel i s).2 = s.2 ++ t) ∧
      (∀ x ∈ s.1, x ∈ (buildTopo g fuel i s).1) ∧
      (∀ x, x ∈ (buildTopo g fuel i s).1 → x ∉ (buildTopo g fuel i s).2 →
        x ∈ s.1 ∧ x ∉ s.2) ∧
      (∀ x ∈ (buildTopo g fuel i s).2, x ∈ s.2 ∨ Reaches g i x) := by
  intro fuel
  induction fuel with
  | zero => intro i s hif; exact absurd hif (Nat.not_lt_zero i)
  | succ fuel IH =>
    intro i s hif hgs hgray
    by_cases hvis : i ∈ s.1
    · have hres : buildTopo g (fuel + 1) i s = s := by simp [buildTopo, hvis]
      rw [hres]
      have hitopo : i ∈ s.2 := by
        by_contra hx
        exact absurd rfl (Nat.ne_of_lt (hgray i hvis hx))
      exact ⟨hgs, hitopo, ⟨[], by simp⟩, fun x hx => hx,
        fun x hx1 hx2 => ⟨hx1, hx2⟩, fun x hx => Or.inl hx⟩
    · have AUX : ∀ cs : List ℕ, (∀ c ∈ cs, c < i) → ∀ t : List ℕ × List ℕ,
          GoodState g t → (∀ x ∈ t.1, x ∉ t.2 → i ≤ x) →
          GoodState g (cs.foldl (fun u c => buildTopo g fuel c u) t) ∧
          (∀ c ∈ cs, c ∈ (cs.foldl (fun u c => buildTopo g fuel c u) t).2) ∧
          (∃ e, (cs.foldl (fun u c => buildTopo g fuel c u) t).2 = t.2 ++ e) ∧
          (∀ x ∈ t.1, x ∈ (cs.foldl (fun u c => buildTopo g fuel c u) t).1) ∧
          (∀ x, x ∈ (cs.foldl (fun u c => buildTopo g fuel c u) t).1 →
            x ∉ (cs.foldl (fun u c => buildTopo g fuel c u) t).2 →
            x ∈ t.1 ∧ x ∉ t.2) ∧
          (∀ x ∈ (cs.foldl (fun u c => buildTopo g fuel c u) t).2,
            x ∈ t.2 ∨ ∃ c ∈ cs, Reaches g c x) := by
        intro cs
        induction cs with
        | nil =>
            intro _ t hgt hgrayt
            exact ⟨hgt, by simp, ⟨[], by simp⟩, fun x hx => hx,
              fun x hx1 hx2 => ⟨hx1, hx2⟩, fun x hx => Or.inl hx⟩
        | cons c cs ihcs =>
            intro hlt t hgt hgrayt
            have hci : c < i := hlt c (List.mem_cons_self c cs)
            have hcf : c < fuel := by omega
            obtain ⟨HG, Hmem, ⟨e1, He1⟩, Hvis, Hgray, Hreach⟩ :=
              IH c t hcf hgt (fun x hx1 hx2 => lt_of_lt_of_le hci (hgrayt x hx1 hx2))
            obtain ⟨QG, Qmem, ⟨e2, He2⟩, Qvis, Qgray, Qreach⟩ :=
              ihcs (fun c' hc' => hlt c' (List.mem_cons_of_mem _ hc'))
                (buildTopo g fuel c t) HG
                (fun x hx1 hx2 =>
                  hgrayt x (Hgray x hx1 hx2).1 (Hgray x hx1 hx2).2)
            rw [List.foldl_cons]
            refine ⟨QG, ?_, ⟨e1 ++ e2, ?_⟩, ?_, ?_, ?_⟩
            · intro c' hc'
              rcases List.mem_cons.mp hc' with rfl | hc''
              · rw [He2]; exact List.mem_append_left _ Hmem
              · exact Qmem c' hc''
            · rw [He2, He1, List.append_assoc]
            · intro x hx
              exact Qvis x (Hvis x hx)
            · intro x hx1 hx2
              obtain ⟨hy1, hy2⟩ := Qgray x hx1 hx2
              exact Hgray x hy1 hy2
            · intro x hx
              rcases Qreach x hx with hx' | ⟨c', hc', hr⟩
              · rcases Hreach x hx' with hx'' | hr
                · exact Or.inl hx''
                · exact Or.inr ⟨c, List.mem_cons_self c cs, hr⟩
              · exact Or.inr ⟨c', List.mem_cons_of_mem _ hc', hr⟩
      have hgs0 : GoodState g (i :: s.1, s.2) :=
        ⟨hgs.1, fun x hx => List.mem_cons_of_mem _ (hgs.2.1 x hx),
          hgs.2.2.1, hgs.2.2.2⟩
      have hgray0 : ∀ x ∈ i :: s.1, x ∉ s.2 → i ≤ x := by
        intro x hx hnx
        rcases List.mem_cons.mp hx with rfl | hx'
        · exact le_refl x
        · exact le_of_lt (hgray x hx' hnx)
      obtain ⟨AG, Amem, ⟨e, He⟩, Avis, Agray, Ablack⟩ :=
        AUX (prev g i) (fun c hc => hwf i c hc) (i :: s.1, s.2) hgs0 hgray0
      have hres : buildTopo g (fuel + 1) i s
          = (((prev g i).foldl (fun u c => buildTopo g fuel c u) (i :: s.1, s.2)).1,
             ((prev g i).foldl (fun u c => buildTopo g fuel c u) (i :: s.1, s.2)).2
               ++ [i]) := by
        simp [buildTopo, hvis]
      rw [hres]
      have hins2 : i ∉ s.2 := fun hx => hvis (hgs.2.1 i hx)
      have hinotb :
          i ∉ ((prev g i).foldl (fun u c => buildTopo g fuel c u) (i :: s.1, s.2)).2 := by
        intro hx
        rcases Ablack i hx with hx' | ⟨c, hc, hr⟩
        · exact hins2 hx'
        · exact absurd (reaches_le hwf hr) (not_le.mpr (hwf i c hc))
      have hiin1 :
          i ∈ ((prev g i).foldl (fun u c => buildTopo g fuel c u) (i :: s.1, s.2)).1 :=
        Avis i (List.mem_cons_self i s.1)
      refine ⟨⟨?_, ?_, ?_, ?_⟩, ?_, ⟨e ++ [i], ?_⟩, ?_, ?_, ?_⟩
      · refine List.Nodup.append AG.1 (List.nodup_singleton i) ?_
        intro x hx1 hx2
        rw [List.mem_singleton] at hx2
        subst hx2
        exact hinotb hx1
      · intro x hx
        rcases List.mem_append.mp hx with hx' | hx'
        · exact AG.2.1 x hx'
        · rw [List.mem_singleton] at hx'
          subst hx'
          exact hiin1
      · intro x hx j hj
        rcases List.mem_append.mp hx with hx' | hx'
        · exact List.mem_append_left _ (AG.2.2.1 x hx' j hj)
        · rw [List.mem_singleton] at hx'
          subst hx'
          exact List.mem_append_left _ (Amem j hj)
      · rw [List.pairwise_append]
        refine ⟨AG.2.2.2, List.pairwise_singleton _ _, ?_⟩
        intro x hx y hy
        rw [List.mem_singleton] at hy
        subst hy
        intro hyx
        exact hinotb (AG.2.2.1 x hx y hyx)
      · exact List.mem_append_right _ (List.mem_singleton.mpr rfl)
      · rw [He, List.append_assoc]
      · intro x hx
        exact Avis x (List.mem_cons_of_mem _ hx)
      · intro x hx1 hx2
        rw [List.mem_append, not_or, List.mem_singleton] at hx2
        obtain ⟨hy1, hy2⟩ := Agray x hx1 hx2.1
        rcases List.mem_cons.mp hy1 with rfl | hy1'
        · exact absurd rfl hx2.2
        · exact ⟨hy1', hy2⟩
      · intro x hx
        rcases List.mem_append.mp hx with hx' | hx'
        · rcases Ablack x hx' with hx'' | ⟨c, hc, hr⟩
          · exact Or.inl hx''
          · exact Or.inr (reaches_trans (Reaches.tail Reaches.refl hc) hr)
        · rw [List.mem_singleton] at hx'
          subst hx'
          exact Or.inr Reaches.refl

end BP

namespace BP

variable {α : Type}

/-! A node's backward rule only writes into its predecessors' gradient
cells, so once a node's own rule has run, later rules leave its gradient
untouched. -/

theorem prev_eq_of_nodes_eq [Field α] {s s' : GS α} (h : s.nodes = s'.nodes)
    (i : ℕ) : prev s i = prev s' i := by
  simp [prev, opOf, h]

theorem runNode_grads_of_not_prev [Field α] {s : GS α} {i v : ℕ}
    (h : v ∉ prev s i) : (runNode s i).grads v = s.grads v := by
  rw [runNode]
  cases hop : opOf s i with
  | leaf => rfl
  | add l r =>
      rw [prev, hop] at h
      have hvl : v ≠ l := fun e => h (List.mem_dedup.mpr (by simp [e, Op.operands]))
      have hvr : v ≠ r := fun e => h (List.mem_dedup.mpr (by simp [e, Op.operands]))
      simp [applyRule, addGrad, updG, hvl, hvr]
  | mul l r =>
      rw [prev, hop] at h
      have hvl : v ≠ l := fun e => h (List.mem_dedup.mpr (by simp [e, Op.operands]))
      have hvr : v ≠ r := fun e => h (List.mem_dedup.mpr (by simp [e, Op.operands]))
      simp [applyRule, addGrad, updG, hvl, hvr]
  | pow j n =>
      rw [prev, hop] at h
      have hvj : v ≠ j := fun e => h (List.mem_dedup.mpr (by simp [e, Op.operands]))
      simp [applyRule, addGrad, updG, hvj]
  | tanh j =>
      rw [prev, hop] at h
      have hvj : v ≠ j := fun e => h (List.mem_dedup.mpr (by simp [e, Op.operands]))
      simp [applyRule, addGrad, updG, hvj]
  | exp j =>
      rw [prev, hop] at h
      have hvj : v ≠ j := fun e => h (List.mem_dedup.mpr (by simp [e, Op.operands]))
      simp [applyRule, addGrad, updG, hvj]

theorem foldl_runNode_nodes [Field α] :
    ∀ (l : List ℕ) (s : GS α), (l.foldl runNode s).nodes = s.nodes := by
  intro l
  induction l with
  | nil => intro s; rfl
  | cons w ws ih =>
      intro s
      rw [List.foldl_cons, ih (runNode s w), runNode_nodes]

theorem foldl_runNode_grads_of_not_prev [Field α] :
    ∀ (l : List ℕ) (s : GS α) (v : ℕ), (∀ w ∈ l, v ∉ prev s w) →
      (l.foldl runNode s).grads v = s.grads v := by
  intro l
  induction l with
  | nil => intro s v _; rfl
  | cons w ws ih =>
      intro s v h
      rw [List.foldl_cons]
      rw [ih (runNode s w) v (fun w' hw' => by
        rw [prev_eq_of_nodes_eq (runNode_nodes s w) w']
        exact h w' (List.mem_cons_of_mem _ hw'))]
      exact runNode_grads_of_not_prev (h w (List.mem_cons_self w ws))

/-- C1: `backward(root)` first computes, by a fuel-free depth-first
post-order traversal of predecessor edges, a list `topo` that (a) visits
each node at most once, (b) contains exactly the nodes reachable from
`root`, and (c) places every node strictly after all of its predecessors;
it then (d) seeds `root.gradient = 1.0` and folds the nodes' backward rules
over `topo` reversed; consequently (e) at the moment a node's rule runs —
after the prefix `l1` of the reversed order — the gradient it reads is
already the final one: every node depending on it has already run. -/
theorem backward_topological_order [Field α] (g : GS α) (root : ℕ) (hwf : Wf g)
    (topo : List ℕ) (htopo : topo = (buildTopo g (root + 1) root ([], [])).2) :
    topo.Nodup ∧
    (∀ x, x ∈ topo ↔ Reaches g root x) ∧
    (∀ k l : Fin topo.length, topo.get l ∈ prev g (topo.get k) → (l : ℕ) < (k : ℕ)) ∧
    backward g root
      = topo.reverse.foldl runNode ⟨g.nodes, updG g.grads root 1⟩ ∧
    (∀ l1 v l2, topo.reverse = l1 ++ v :: l2 →
      (l1.foldl runNode ⟨g.nodes, updG g.grads root 1⟩).grads v
        = (backward g root).grads v) := by
  obtain ⟨MG, Mmem, ⟨t, Ht⟩, -, -, Mblack⟩ :=
    buildTopo_master g hwf (root + 1) root ([], []) (Nat.lt_succ_self root)
      ⟨List.nodup_nil, by simp, by simp, List.Pairwise.nil⟩ (by simp)
  subst htopo
  have hiff : ∀ x, x ∈ (buildTopo g (root + 1) root ([], [])).2 ↔ Reaches g root x := by
    intro x
    constructor
    · intro hx
      rcases Mblack x hx with hx' | hr
      · simp at hx'
      · exact hr
    · intro hr
      induction hr with
      | refl => exact Mmem
      | tail h hj ih => exact MG.2.2.1 _ ih _ hj
  refine ⟨MG.1, hiff, ?_, rfl, ?_⟩
  · intro k l hmem
    rcases lt_trichotomy (l : ℕ) (k : ℕ) with h | h | h
    · exact h
    · exfalso
      have hkl : (buildTopo g (root + 1) root ([], [])).2.get l
          = (buildTopo g (root + 1) root ([], [])).2.get k := by
        congr 1
        exact Fin.ext h
      rw [hkl] at hmem
      exact absurd (hwf _ _ hmem) (lt_irrefl _)
    · exfalso
      exact (List.pairwise_iff_get.mp MG.2.2.2 k l h) hmem
  · intro l1 v l2 hsplit
    have hrev : (buildTopo g (root + 1) root ([], [])).2
        = (l2.reverse ++ [v]) ++ l1.reverse := by
      have h0 := congrArg List.reverse hsplit
      rw [List.reverse_reverse] at h0
      rw [h0]
      simp
    have hpw := MG.2.2.2
    rw [hrev, List.pairwise_append] at hpw
    obtain ⟨hpw1, -, -⟩ := hpw
    rw [List.pairwise_append] at hpw1
    obtain ⟨-, -, hcross⟩ := hpw1
    have hnotw : ∀ w ∈ v :: l2, v ∉ prev g w := by
      intro w hw
      rcases List.mem_cons.mp hw with rfl | hw'
      · exact fun hx => absurd (hwf _ _ hx) (lt_irrefl _)
      · exact hcross w (List.mem_reverse.mpr hw') v (List.mem_singleton.mpr rfl)
    have hb : backward g root
        = ((buildTopo g (root + 1) root ([], [])).2.reverse).foldl runNode
            ⟨g.nodes, updG g.grads root 1⟩ := rfl
    rw [hb, hsplit, List.foldl_append, List.foldl_cons]
    have hn1 : (l1.foldl runNode (⟨g.nodes, updG g.grads root 1⟩ : GS α)).nodes
        = g.nodes := foldl_runNode_nodes l1 _
    have hn2 : (runNode (l1.foldl runNode (⟨g.nodes, updG g.grads root 1⟩ : GS α)) v).nodes
        = g.nodes := by rw [runNode_nodes]; exact hn1
    rw [foldl_runNode_grads_of_not_prev l2 _ v (fun w hw => by
      rw [prev_eq_of_nodes_eq hn2 w]
      exact hnotw w (List.mem_cons_of_mem _ hw))]
    rw [runNode_grads_of_not_prev (show v ∉ prev (l1.foldl runNode
        (⟨g.nodes, updG g.grads root 1⟩ : GS α)) v from by
      rw [prev_eq_of_nodes_eq hn1 v]
      exact hnotw v (List.mem_cons_self v l2))]

/-- The C3 graph at `v = 3`, reused as a concrete well-formed instance. -/
def gTopo : GS ℚ := (c3graph (3 : ℚ)).1

/-- C1 witness: the topological-order theorem applied to the concrete graph
`a = Value(3.0); b = a * a + a` rooted at `b` (id 2). -/
theorem backward_topological_order_witness :
    Wf gTopo ∧ (buildTopo gTopo 3 2 ([], [])).2.Nodup :=
  ⟨wf_of_bounded gTopo (by decide),
    (backward_topological_order gTopo 2 (wf_of_bounded gTopo (by decide))
      (buildTopo gTopo 3 2 ([], [])).2 rfl).1⟩

end BP

namespace BP

variable {α : Type}

/-! End-to-end scenario (claim C4): `a = Value(2.0)`, `b = Value(-3.0)`,
`c = Value(10.0)`, `d = a*b + c`, `f = d.tanh()`, over `ℝ` with the real
exponential. -/

/-- The C4 graph, generic in the host exponential: ids `a = 0`, `b = 1`,
`c = 2`, `a*b = 3`, `d = 4`, `f = 5`. -/
def c4graph [Field α] (E : α → α) : GS α × ℕ :=
  let a := leafV (GS.empty : GS α) 2
  let b := leafV a.1 (-3)
  let c := leafV b.1 10
  let d1 := vMul c.1 a.2 b.2
  let d := vAdd d1.1 d1.2 c.2
  vTanh E d.1 d.2

theorem real_tanh_four : Real.tanh 4 = (Real.exp 8 - 1) / (Real.exp 8 + 1) := by
  rw [Real.tanh_eq_sinh_div_cosh, Real.sinh_eq, Real.cosh_eq]
  have h8 : Real.exp 8 = Real.exp 4 * Real.exp 4 := by
    rw [← Real.exp_add]; norm_num
  have h1 : (0 : ℝ) < Real.exp 4 := Real.exp_pos 4
  have h2 : Real.exp 8 + 1 ≠ 0 := by positivity
  have h3 : Real.exp 4 + Real.exp (-4) ≠ 0 := by positivity
  rw [Real.exp_neg] at h3 ⊢
  field_simp
  rw [h8]

/-- C4: in the end-to-end scenario the forward values satisfy
`d.data = 4` and `f.data = tanh 4`, and after `backward(f)` the gradients
are `a.gradient = b.data * (1 - f.data^2)`,
`b.gradient = a.data * (1 - f.data^2)` and `c.gradient = 1 - f.data^2`,
exactly as the multiplication, addition and tanh rules compose. -/
theorem end_to_end_scenario :
    dataOf (c4graph Real.exp).1 4 = 4 ∧
    dataOf (c4graph Real.exp).1 5 = Real.tanh 4 ∧
    (backward (c4graph Real.exp).1 5).grads 0
      = dataOf (c4graph Real.exp).1 1 * (1 - dataOf (c4graph Real.exp).1 5 ^ 2) ∧
    (backward (c4graph Real.exp).1 5).grads 1
      = dataOf (c4graph Real.exp).1 0 * (1 - dataOf (c4graph Real.exp).1 5 ^ 2) ∧
    (backward (c4graph Real.exp).1 5).grads 2
      = 1 - dataOf (c4graph Real.exp).1 5 ^ 2 := by
  refine ⟨?_, ?_, ?_, ?_, ?_⟩
  · have h : dataOf (c4graph Real.exp).1 4 = 2 * (-3) + 10 := rfl
    rw [h]; norm_num
  · have h : dataOf (c4graph Real.exp).1 5
        = (Real.exp (2 * (2 * (-3) + 10)) - 1)
            / (Real.exp (2 * (2 * (-3) + 10)) + 1) := rfl
    have harg : (2 : ℝ) * (2 * (-3) + 10) = 8 := by norm_num
    rw [h, harg]
    exact real_tanh_four.symm
  · have h : (backward (c4graph Real.exp).1 5).grads 0
        = 0 + dataOf (c4graph Real.exp).1 1
            * (0 + 1 * (0 + (1 - dataOf (c4graph Real.exp).1 5 ^ 2) * 1)) := rfl
    rw [h]; ring
  · have h : (backward (c4graph Real.exp).1 5).grads 1
        = 0 + dataOf (c4graph Real.exp).1 0
            * (0 + 1 * (0 + (1 - dataOf (c4graph Real.exp).1 5 ^ 2) * 1)) := rfl
    rw [h]; ring
  · have h : (backward (c4graph Real.exp).1 5).grads 2
        = 0 + 1 * (0 + (1 - dataOf (c4graph Real.exp).1 5 ^ 2) * 1) := rfl
    rw [h]; ring

end BP
